import Mathlib

/-!
# Verification of the chained hash table in `src/hashing.py`

Shallow embedding of the two classes in `hashing.py`:

* `UniversalHashFunction` — an affine hash `((a * k + b) mod p) mod m`.
* `HashTableChaining` — a dynamically resized chained hash table with
  `insert` / `search` / `delete` and cumulative collision / resize counters.

Modelling choices, justified against the Python source:

* Keys are modelled as `Int` (arbitrary-precision Python integers on the
  non-string branch of `UniversalHashFunction.hash`, where `key_int = key`).
  Values are a type parameter `V`.
* Python's `%` on integers with a *positive* right operand agrees with
  `Int.emod` (Lean's `%` on `Int`), and Python's `//` with a positive right
  operand agrees with `Int.ediv` (Lean's `/` on `Int`).  The prime
  `p = 2147483647` is positive and every modulus / divisor used by the
  table is positive in the states the theorems speak about.
* Python float arithmetic in `_get_load_factor` is modelled exactly with
  `ℚ`; every concrete comparison appearing in the claims involves dyadic
  rationals (`size / capacity` with power-of-two capacities, thresholds
  `0.75` and `0.25`), on which binary floating point is exact.
* `random.randint` draws in `UniversalHashFunction.__init__` are modelled
  by explicit coefficient supplies `rngA rngB : Nat → Int` threaded through
  the table state and indexed by a draw counter; theorems quantify over all
  supplies, hence over all draws the Python RNG could produce.
* In-place mutation of a bucket (`chain[i] = ...`, `chain.append`,
  `chain.pop(i)`) becomes a functional update of the bucket list stored at
  the hashed index.
-/

set_option maxHeartbeats 1000000
set_option maxRecDepth 100000

/-- The `UniversalHashFunction` object: `self.m`, `self.p`, `self.a`, `self.b`
(`hashing.py`, lines 10–14). -/
structure UniversalHashFunction where
  m : Int
  p : Int
  a : Int
  b : Int
deriving DecidableEq

/-- `UniversalHashFunction.hash` on the integer-key branch
(`hashing.py`, lines 16–24): `((self.a * key_int + self.b) % self.p) % self.m`. -/
def UniversalHashFunction.hash (f : UniversalHashFunction) (key : Int) : Int :=
  ((f.a * key + f.b) % f.p) % f.m

/-- `UniversalHashFunction.__init__(table_size)` with the two `randint` draws
made explicit arguments (`hashing.py`, lines 10–14): `m := table_size`,
`p := 2147483647`. -/
def mkUniversalHashFunction (table_size : Int) (a b : Int) : UniversalHashFunction :=
  { m := table_size, p := 2147483647, a := a, b := b }

/-- The `HashTableChaining` object state (`hashing.py`, lines 36–45), plus the
modelled randomness source: `rngA n` / `rngB n` are the coefficients of the
`n`-th `UniversalHashFunction` constructed by this table, and `rngIdx` counts
how many have been constructed so far. -/
structure HashTableChaining (V : Type) where
  capacity : Int
  max_load_factor : ℚ
  size : Int
  table : List (List (Int × V))
  hash_func : UniversalHashFunction
  num_collisions : Int
  num_resizes : Int
  rngA : Nat → Int
  rngB : Nat → Int
  rngIdx : Nat

/-- The scan-and-replace loop of `insert` / `_insert_no_resize`
(`hashing.py`, lines 79–82 and 106–109): replace the value of the first entry
whose key equals `key`; `none` when no entry matches (the loop falls through). -/
def chainUpdate {V : Type} (key : Int) (value : V) :
    List (Int × V) → Option (List (Int × V))
  | [] => none
  | (k, v) :: rest =>
    if k = key then some ((key, value) :: rest)
    else
      match chainUpdate key value rest with
      | some rest1 => some ((k, v) :: rest1)
      | none => none

/-- The scan loop of `search` (`hashing.py`, lines 131–134): value of the first
entry whose key equals `key`, else `none`. -/
def chainFind {V : Type} (key : Int) : List (Int × V) → Option V
  | [] => none
  | (k, v) :: rest => if k = key then some v else chainFind key rest

/-- The scan-and-`pop` loop of `delete` (`hashing.py`, lines 150–152): remove
the first entry whose key equals `key`; `none` when no entry matches. -/
def chainPop {V : Type} (key : Int) : List (Int × V) → Option (List (Int × V))
  | [] => none
  | (k, v) :: rest =>
    if k = key then some rest
    else
      match chainPop key rest with
      | some rest1 => some ((k, v) :: rest1)
      | none => none

namespace HashTableChaining

variable {V : Type}

/-- `HashTableChaining.__init__(initial_capacity, max_load_factor)`
(`hashing.py`, lines 36–45).  The constructor performs **no validation** of
its arguments.  It consumes one `UniversalHashFunction` construction
(draw index 0). -/
def init (initial_capacity : Int) (max_load_factor : ℚ)
    (rngA rngB : Nat → Int) : HashTableChaining V :=
  { capacity := initial_capacity
    max_load_factor := max_load_factor
    size := 0
    table := List.replicate initial_capacity.toNat []
    hash_func := mkUniversalHashFunction initial_capacity (rngA 0) (rngB 0)
    num_collisions := 0
    num_resizes := 0
    rngA := rngA
    rngB := rngB
    rngIdx := 1 }

/-- `_get_load_factor` (`hashing.py`, lines 47–49):
`self.size / self.capacity if self.capacity > 0 else 0`. -/
def _get_load_factor (t : HashTableChaining V) : ℚ :=
  if 0 < t.capacity then (t.size : ℚ) / (t.capacity : ℚ) else 0

/-- `_insert_no_resize` (`hashing.py`, lines 73–87): update in place if the key
exists; otherwise count a collision when the chain is non-empty and append.
Does not touch `size`. -/
def _insert_no_resize (t : HashTableChaining V) (key : Int) (value : V) :
    HashTableChaining V :=
  let index := (t.hash_func.hash key).toNat
  let chain := t.table.getD index []
  match chainUpdate key value chain with
  | some chain1 => { t with table := t.table.set index chain1 }
  | none =>
      let t1 := if 0 < chain.length
                then { t with num_collisions := t.num_collisions + 1 } else t
      { t1 with table := t1.table.set index (chain ++ [(key, value)]) }

/-- `_resize(new_capacity)` (`hashing.py`, lines 51–71): bump the resize
counter, allocate `new_capacity` empty chains, construct a fresh
`UniversalHashFunction` (next RNG draw), zero `size`, re-insert every entry of
the old table via `_insert_no_resize`, and restore `size`. -/
def _resize (t : HashTableChaining V) (new_capacity : Int) : HashTableChaining V :=
  let t1 := { t with num_resizes := t.num_resizes + 1 }
  let old_table := t1.table
  let t2 := { t1 with
    capacity := new_capacity
    table := List.replicate new_capacity.toNat []
    hash_func := mkUniversalHashFunction new_capacity (t1.rngA t1.rngIdx) (t1.rngB t1.rngIdx)
    rngIdx := t1.rngIdx + 1 }
  let old_size := t2.size
  let t3 := { t2 with size := 0 }
  let t4 := old_table.foldl
    (fun acc chain => chain.foldl (fun acc2 kv => acc2._insert_no_resize kv.1 kv.2) acc) t3
  { t4 with size := old_size }

/-- `insert` (`hashing.py`, lines 89–115): grow (double) first when the current
load factor has reached `max_load_factor`, then update-or-append exactly as
`_insert_no_resize`, additionally incrementing `size` on append. -/
def insert (t : HashTableChaining V) (key : Int) (value : V) : HashTableChaining V :=
  let t0 := if t._get_load_factor ≥ t.max_load_factor
            then t._resize (t.capacity * 2) else t
  let index := (t0.hash_func.hash key).toNat
  let chain := t0.table.getD index []
  match chainUpdate key value chain with
  | some chain1 => { t0 with table := t0.table.set index chain1 }
  | none =>
      let t1 := if 0 < chain.length
                then { t0 with num_collisions := t0.num_collisions + 1 } else t0
      { t1 with table := t1.table.set index (chain ++ [(key, value)])
                size := t1.size + 1 }

/-- `search` (`hashing.py`, lines 117–134): scan the chain at the hashed index;
`none` models Python's `None` ("not found"). -/
def search (t : HashTableChaining V) (key : Int) : Option V :=
  let index := (t.hash_func.hash key).toNat
  let chain := t.table.getD index []
  chainFind key chain

/-- `delete` (`hashing.py`, lines 136–160): remove the first matching entry of
the hashed chain and decrement `size`; then shrink (halve) when
`size > 0 ∧ load_factor < 0.25 ∧ capacity > 16`.  Returns the updated table
and the Boolean result. -/
def delete (t : HashTableChaining V) (key : Int) : HashTableChaining V × Bool :=
  let index := (t.hash_func.hash key).toNat
  let chain := t.table.getD index []
  match chainPop key chain with
  | none => (t, false)
  | some chain1 =>
      let t1 := { t with table := t.table.set index chain1, size := t.size - 1 }
      let t2 := if 0 < t1.size ∧ t1._get_load_factor < (1 / 4 : ℚ) ∧ 16 < t1.capacity
                then t1._resize (t1.capacity / 2) else t1
      (t2, true)

/-- One public operation on the table: the API surface reachability quantifies
over (`insert` and `delete`; `search` is read-only and never changes state). -/
inductive TableOp (V : Type) where
  | ins (key : Int) (value : V)
  | del (key : Int)

/-- Apply one public operation. -/
def step (t : HashTableChaining V) : TableOp V → HashTableChaining V
  | .ins k v => t.insert k v
  | .del k => (t.delete k).1

/-- Run a sequence of public operations. -/
def run (t : HashTableChaining V) (ops : List (TableOp V)) : HashTableChaining V :=
  ops.foldl step t

/-- Structural invariant tying the parts of a table state together: positive
capacity, bucket count equal to the capacity, hash function bound to the
current capacity, every stored entry sitting in the bucket the current hash
function assigns to its key, per-bucket key uniqueness, and `size` counting
the stored entries.  Every state reachable by the public operations from a
validly constructed table satisfies it. -/
structure Inv (t : HashTableChaining V) : Prop where
  cap_pos : 0 < t.capacity
  len_eq : t.table.length = t.capacity.toNat
  hm : t.hash_func.m = t.capacity
  placed : ∀ j, ∀ kv ∈ t.table.getD j [], (t.hash_func.hash kv.1).toNat = j
  bnodup : ∀ j, ((t.table.getD j []).map Prod.fst).Nodup
  size_eq : t.size = (t.table.flatten.length : Int)

/-- Arithmetic invariant for the amended load-factor bound: in the default
configuration family (max load factor `3/4`, capacity a power of two that is
at least `4`) the size never exceeds `3/4` of the capacity. -/
def GrowInv (t : HashTableChaining V) : Prop :=
  (∃ j : Nat, 2 ≤ j ∧ t.capacity = 2 ^ j) ∧
  4 * t.size ≤ 3 * t.capacity ∧
  t.max_load_factor = 3 / 4

/-- The shrink condition of `delete` (`hashing.py`, line 156), expressed on
the pre-delete state (for a state with positive capacity): after removing one
entry the size is still positive, the load factor is below `0.25`, and the
capacity exceeds `16`. -/
abbrev shrinkCondition (t : HashTableChaining V) : Prop :=
  0 < t.size - 1 ∧ ((t.size : ℚ) - 1) / (t.capacity : ℚ) < 1 / 4 ∧ 16 < t.capacity

end HashTableChaining

/-- Specification-side description (§8 "Round-trip") of the value the table
should report for `key` after a sequence of `(key, value)` insert calls: the
value of the last insert whose key is `key`, when there is one. -/
def lastInserted {V : Type} (ps : List (Int × V)) (key : Int) : Option V :=
  ps.foldl (fun acc p => if p.1 = key then some p.2 else acc) none

/-! ### Lemmas about the chain-scanning loops -/

theorem chainFind_append_none {V : Type} (key : Int) (l1 l2 : List (Int × V))
    (h : chainFind key l1 = none) :
    chainFind key (l1 ++ l2) = chainFind key l2 := by
  induction l1 with
  | nil => simp
  | cons p rest ih =>
    obtain ⟨k, v⟩ := p
    by_cases hk : k = key
    · simp [chainFind, hk] at h
    · simp only [chainFind, hk, if_false, List.cons_append] at h ⊢
      exact ih h

theorem chainFind_append_some {V : Type} (key : Int) (l1 l2 : List (Int × V))
    (v0 : V) (h : chainFind key l1 = some v0) :
    chainFind key (l1 ++ l2) = some v0 := by
  induction l1 with
  | nil => simp [chainFind] at h
  | cons p rest ih =>
    obtain ⟨k, v⟩ := p
    by_cases hk : k = key
    · simp only [chainFind, hk, if_true, List.cons_append] at h ⊢
      exact h
    · simp only [chainFind, hk, if_false, List.cons_append] at h ⊢
      exact ih h

theorem chainFind_eq_none_iff {V : Type} (key : Int) (l : List (Int × V)) :
    chainFind key l = none ↔ ∀ kv ∈ l, kv.1 ≠ key := by
  induction l with
  | nil => simp [chainFind]
  | cons p rest ih =>
    obtain ⟨k, v⟩ := p
    by_cases hk : k = key
    · simp [chainFind, hk]
    · simp [chainFind, hk, ih]

theorem chainUpdate_eq_none_iff {V : Type} (key : Int) (value : V) (l : List (Int × V)) :
    chainUpdate key value l = none ↔ chainFind key l = none := by
  induction l with
  | nil => simp [chainUpdate, chainFind]
  | cons p rest ih =>
    obtain ⟨k, v⟩ := p
    by_cases hk : k = key
    · simp [chainUpdate, chainFind, hk]
    · simp only [chainUpdate, chainFind, hk, if_false]
      cases hrec : chainUpdate key value rest with
      | none => simp [ih.mp hrec, ← ih, hrec]
      | some rest1 => simp [← ih, hrec]

theorem chainUpdate_some_spec {V : Type} (key : Int) (value : V)
    (l l1 : List (Int × V)) (h : chainUpdate key value l = some l1) :
    l1.map Prod.fst = l.map Prod.fst ∧
    chainFind key l1 = some value ∧
    (∀ k1, k1 ≠ key → chainFind k1 l1 = chainFind k1 l) ∧
    (∀ kv ∈ l1, kv ∈ l ∨ kv = (key, value)) := by
  induction l generalizing l1 with
  | nil => simp [chainUpdate] at h
  | cons p rest ih =>
    obtain ⟨k, v⟩ := p
    by_cases hk : k = key
    · subst hk
      simp only [chainUpdate, if_true, Option.some.injEq] at h
      subst h
      refine ⟨by simp, by simp [chainFind], ?_, ?_⟩
      · intro k1 hk1
        simp [chainFind, Ne.symm hk1]
      · intro kv hkv
        rcases List.mem_cons.mp hkv with h1 | h1
        · exact Or.inr h1
        · exact Or.inl (List.mem_cons_of_mem _ h1)
    · simp only [chainUpdate, hk, if_false] at h
      cases hrec : chainUpdate key value rest with
      | none => simp [hrec] at h
      | some rest1 =>
        simp only [hrec, Option.some.injEq] at h
        subst h
        obtain ⟨hmap, hfind, hother, hmem⟩ := ih rest1 hrec
        refine ⟨by simp [hmap], by simp [chainFind, hk, hfind], ?_, ?_⟩
        · intro k1 hk1
          by_cases hk2 : k = k1 <;> simp [chainFind, hk2, hother k1 hk1]
        · intro kv hkv
          rcases List.mem_cons.mp hkv with h1 | h1
          · exact Or.inl (by simp [h1])
          · rcases hmem kv h1 with h2 | h2
            · exact Or.inl (List.mem_cons_of_mem _ h2)
            · exact Or.inr h2

theorem chainPop_eq_none_iff {V : Type} (key : Int) (l : List (Int × V)) :
    chainPop key l = none ↔ chainFind key l = none := by
  induction l with
  | nil => simp [chainPop, chainFind]
  | cons p rest ih =>
    obtain ⟨k, v⟩ := p
    by_cases hk : k = key
    · simp [chainPop, chainFind, hk]
    · simp only [chainPop, chainFind, hk, if_false]
      cases hrec : chainPop key rest with
      | none => simp [ih.mp hrec, ← ih, hrec]
      | some rest1 => simp [← ih, hrec]

theorem chainPop_some_spec {V : Type} (key : Int) (l l1 : List (Int × V))
    (h : chainPop key l = some l1) :
    l1.Sublist l ∧ l1.length + 1 = l.length ∧
    (∀ k1, k1 ≠ key → chainFind k1 l1 = chainFind k1 l) ∧
    ((l.map Prod.fst).Nodup → chainFind key l1 = none) := by
  induction l generalizing l1 with
  | nil => simp [chainPop] at h
  | cons p rest ih =>
    obtain ⟨k, v⟩ := p
    by_cases hk : k = key
    · simp only [chainPop, hk, if_true, Option.some.injEq] at h
      subst h
      refine ⟨List.sublist_cons_self _ _, by simp, ?_, ?_⟩
      · intro k1 hk1
        simp [chainFind, hk, Ne.symm hk1]
      · intro hnd
        rw [chainFind_eq_none_iff]
        intro kv hkv hkey
        have hmem : kv.1 ∈ rest.map Prod.fst := List.mem_map_of_mem _ hkv
        simp only [List.map_cons, List.nodup_cons] at hnd
        rw [hkey, ← hk] at hmem
        exact hnd.1 hmem
    · simp only [chainPop, hk, if_false] at h
      cases hrec : chainPop key rest with
      | none => simp [hrec] at h
      | some rest1 =>
        simp only [hrec, Option.some.injEq] at h
        subst h
        obtain ⟨hsub, hlen, hother, hnone⟩ := ih rest1 hrec
        refine ⟨List.Sublist.cons₂ _ hsub, by simp [← hlen], ?_, ?_⟩
        · intro k1 hk1
          by_cases hk2 : k = k1 <;> simp [chainFind, hk2, hother k1 hk1]
        · intro hnd
          simp only [List.map_cons, List.nodup_cons] at hnd
          simp [chainFind, hk, hnone hnd.2]

/-! ### List indexing helpers -/

theorem listGetD_set_self {α : Type} (l : List α) (i : Nat) (x d : α)
    (h : i < l.length) : (l.set i x).getD i d = x := by
  induction l generalizing i with
  | nil => simp at h
  | cons a rest ih =>
    cases i with
    | zero => simp
    | succ n =>
      simp only [List.set, List.getD_cons_succ]
      exact ih n (by simpa using h)

theorem listGetD_set_of_ne {α : Type} (l : List α) (i j : Nat) (x d : α)
    (h : i ≠ j) : (l.set i x).getD j d = l.getD j d := by
  induction l generalizing i j with
  | nil => simp [List.set]
  | cons a rest ih =>
    cases i with
    | zero =>
      cases j with
      | zero => exact absurd rfl h
      | succ m => simp
    | succ n =>
      cases j with
      | zero => simp
      | succ m =>
        simp only [List.set, List.getD_cons_succ]
        exact ih n m (by omega)

theorem listGetD_replicate_nil {α : Type} (n j : Nat) :
    (List.replicate n ([] : List α)).getD j [] = [] := by
  induction n generalizing j with
  | zero => simp
  | succ m ih =>
    cases j with
    | zero => simp [List.replicate]
    | succ i => simp [List.replicate, ih]

theorem flatten_replicate_nil {α : Type} (n : Nat) :
    (List.replicate n ([] : List α)).flatten = [] := by
  induction n with
  | zero => simp
  | succ m ih => simp [List.replicate, ih]

theorem mem_getD_of_mem_flatten {α : Type} (l : List (List α)) (x : α)
    (h : x ∈ l.flatten) : ∃ j, x ∈ l.getD j [] := by
  induction l with
  | nil => simp at h
  | cons c rest ih =>
    simp only [List.flatten_cons] at h
    rcases List.mem_append.mp h with h1 | h1
    · exact ⟨0, by simpa using h1⟩
    · obtain ⟨j, hj⟩ := ih h1
      exact ⟨j + 1, by simpa using hj⟩

theorem chainFind_flatten {V : Type} (key : Int) (l : List (List (Int × V))) (i : Nat)
    (hother : ∀ j, j ≠ i → ∀ kv ∈ l.getD j [], kv.1 ≠ key) :
    chainFind key l.flatten = chainFind key (l.getD i []) := by
  induction l generalizing i with
  | nil => simp
  | cons c rest ih =>
    cases i with
    | zero =>
      have hnone : chainFind key rest.flatten = none := by
        rw [chainFind_eq_none_iff]
        intro kv hkv
        obtain ⟨j, hj⟩ := mem_getD_of_mem_flatten rest kv hkv
        exact hother (j + 1) (by omega) kv (by simpa using hj)
      simp only [List.flatten_cons, List.getD_cons_zero]
      cases hc : chainFind key c with
      | none => rw [chainFind_append_none key c rest.flatten hc, hnone]
      | some v => rw [chainFind_append_some key c rest.flatten v hc]
    | succ n =>
      have hcnone : chainFind key c = none := by
        rw [chainFind_eq_none_iff]
        intro kv hkv
        exact hother 0 (by omega) kv (by simpa using hkv)
      simp only [List.flatten_cons, List.getD_cons_succ]
      rw [chainFind_append_none key c rest.flatten hcnone]
      exact ih n (fun j hj kv hkv => hother (j + 1) (by omega) kv (by simpa using hkv))

theorem flatten_keys_nodup {V : Type} (f : Int → Nat) :
    ∀ (l : List (List (Int × V))) (off : Nat),
    (∀ j, ((l.getD j []).map Prod.fst).Nodup) →
    (∀ j, ∀ kv ∈ l.getD j [], f kv.1 = j + off) →
    ((l.flatten).map Prod.fst).Nodup := by
  intro l
  induction l with
  | nil => intro off _ _; simp
  | cons c rest ih =>
    intro off hb hp
    simp only [List.flatten_cons, List.map_append, List.nodup_append]
    refine ⟨by simpa using hb 0, ?_, ?_⟩
    · exact ih (off + 1) (fun j => by simpa using hb (j + 1))
        (fun j kv hkv => by
          have := hp (j + 1) kv (by simpa using hkv)
          omega)
    · intro k hk1 hk2
      obtain ⟨kv1, hkv1, hfst1⟩ := List.mem_map.mp hk1
      obtain ⟨kv2, hkv2, hfst2⟩ := List.mem_map.mp hk2
      obtain ⟨kv3, hkv3, hfst3⟩ :
          ∃ x ∈ rest.flatten, Prod.fst x = k := List.mem_map.mp hk2
      obtain ⟨j, hj⟩ := mem_getD_of_mem_flatten rest kv3 hkv3
      have h1 : f k = 0 + off := by
        rw [← hfst1]; exact hp 0 kv1 (by simpa using hkv1)
      have h2 : f k = (j + 1) + off := by
        rw [← hfst3]; exact hp (j + 1) kv3 (by simpa using hj)
      omega


theorem flatten_length_set {α : Type} (l : List (List α)) (i : Nat) (c : List α)
    (h : i < l.length) :
    (l.set i c).flatten.length + (l.getD i []).length
      = l.flatten.length + c.length := by
  induction l generalizing i with
  | nil => simp at h
  | cons a rest ih =>
    cases i with
    | zero =>
      simp only [List.set, List.flatten_cons, List.length_append, List.getD_cons_zero]
      omega
    | succ n =>
      simp only [List.set, List.flatten_cons, List.length_append, List.getD_cons_succ]
      have := ih n (by simpa using h)
      omega

/-! ### Basic facts about the hash function -/

theorem hash_range (f : UniversalHashFunction) (key : Int) (hm : 0 < f.m) :
    0 ≤ f.hash key ∧ f.hash key < f.m :=
  ⟨Int.emod_nonneg _ (by omega), Int.emod_lt_of_pos _ hm⟩

namespace HashTableChaining

variable {V : Type}

/-- Under the invariant, the hashed bucket index is in bounds for the bucket
array: the accesses `self.table[index]` in `insert` / `search` / `delete`
never fault. -/
theorem index_lt (t : HashTableChaining V) (key : Int) (h : Inv t) :
    (t.hash_func.hash key).toNat < t.table.length := by
  obtain ⟨h0, h1⟩ := hash_range t.hash_func key (by rw [h.hm]; exact h.cap_pos)
  rw [h.hm] at h1
  rw [h.len_eq]
  omega

theorem search_def (t : HashTableChaining V) (key : Int) :
    t.search key = chainFind key (t.table.getD (t.hash_func.hash key).toNat []) := rfl

/-- `_insert_no_resize` takes one of two shapes: an in-place value update when
the key is already in its chain, or an append (with `0` or `1` new collisions)
when it is not. -/
theorem ins_no_resize_cases (t : HashTableChaining V) (key : Int) (value : V) :
    (∃ c1, chainUpdate key value (t.table.getD (t.hash_func.hash key).toNat []) = some c1 ∧
      t._insert_no_resize key value
        = { t with table := t.table.set (t.hash_func.hash key).toNat c1 }) ∨
    (chainFind key (t.table.getD (t.hash_func.hash key).toNat []) = none ∧
      ∃ n, (n = 0 ∨ n = 1) ∧
        t._insert_no_resize key value
          = { t with
              table := t.table.set (t.hash_func.hash key).toNat
                (t.table.getD (t.hash_func.hash key).toNat [] ++ [(key, value)]),
              num_collisions := t.num_collisions + n }) := by
  cases hu : chainUpdate key value (t.table.getD (t.hash_func.hash key).toNat []) with
  | some c1 =>
    refine Or.inl ⟨c1, rfl, ?_⟩
    simp only [_insert_no_resize, hu]
  | none =>
    refine Or.inr ⟨(chainUpdate_eq_none_iff key value _).mp hu, ?_⟩
    by_cases h0 : 0 < (t.table.getD (t.hash_func.hash key).toNat []).length
    · exact ⟨1, Or.inr rfl, by simp only [_insert_no_resize, hu, if_pos h0]⟩
    · refine ⟨0, Or.inl rfl, ?_⟩
      simp only [_insert_no_resize, hu, if_neg h0]
      congr 1
      omega

/-- Full specification of `_insert_no_resize` relative to a structurally
well-formed state: frame conditions, effect on `search`, entry count, entry
placement and per-bucket key uniqueness. -/
theorem ins_no_resize_spec (t : HashTableChaining V) (key : Int) (value : V)
    (hcap : 0 < t.capacity) (hlen : t.table.length = t.capacity.toNat)
    (hm : t.hash_func.m = t.capacity) :
    (t._insert_no_resize key value).capacity = t.capacity ∧
    (t._insert_no_resize key value).max_load_factor = t.max_load_factor ∧
    (t._insert_no_resize key value).size = t.size ∧
    (t._insert_no_resize key value).hash_func = t.hash_func ∧
    (t._insert_no_resize key value).num_resizes = t.num_resizes ∧
    (t._insert_no_resize key value).rngA = t.rngA ∧
    (t._insert_no_resize key value).rngB = t.rngB ∧
    (t._insert_no_resize key value).rngIdx = t.rngIdx ∧
    (t._insert_no_resize key value).table.length = t.table.length ∧
    t.num_collisions ≤ (t._insert_no_resize key value).num_collisions ∧
    (∀ k1, k1 ≠ key → (t._insert_no_resize key value).search k1 = t.search k1) ∧
    (t._insert_no_resize key value).search key = some value ∧
    (t.search key = none →
      ((t._insert_no_resize key value).table.flatten.length : Int)
        = (t.table.flatten.length : Int) + 1) ∧
    (t.search key ≠ none →
      ((t._insert_no_resize key value).table.flatten.length : Int)
        = (t.table.flatten.length : Int)) ∧
    ((∀ j, ∀ kv ∈ t.table.getD j [], (t.hash_func.hash kv.1).toNat = j) →
      ∀ j, ∀ kv ∈ (t._insert_no_resize key value).table.getD j [],
        (t.hash_func.hash kv.1).toNat = j) ∧
    ((∀ j, ((t.table.getD j []).map Prod.fst).Nodup) →
      ∀ j, (((t._insert_no_resize key value).table.getD j []).map Prod.fst).Nodup) := by
  have hidx : (t.hash_func.hash key).toNat < t.table.length := by
    obtain ⟨h0, h1⟩ := hash_range t.hash_func key (by rw [hm]; exact hcap)
    rw [hm] at h1
    rw [hlen]
    omega
  rcases ins_no_resize_cases t key value with ⟨c1, hu, hs⟩ | ⟨hnone, n, hn, hs⟩
  · obtain ⟨hmap, hfind, hother, hmem⟩ := chainUpdate_some_spec key value _ c1 hu
    have hsne : t.search key ≠ none := by
      rw [search_def]
      intro hcontra
      rw [(chainUpdate_eq_none_iff key value _).mpr hcontra] at hu
      exact Option.noConfusion hu
    rw [hs]
    refine ⟨rfl, rfl, rfl, rfl, rfl, rfl, rfl, rfl, by simp, le_refl _, ?_, ?_, ?_, ?_, ?_, ?_⟩
    · intro k1 hk1
      rw [search_def, search_def]
      show chainFind k1 ((t.table.set (t.hash_func.hash key).toNat c1).getD
        (t.hash_func.hash k1).toNat []) = _
      by_cases hj : (t.hash_func.hash k1).toNat = (t.hash_func.hash key).toNat
      · rw [hj, listGetD_set_self _ _ _ _ hidx]
        exact hother k1 hk1
      · rw [listGetD_set_of_ne _ _ _ _ _ (fun h => hj h.symm)]
    · rw [search_def]
      show chainFind key ((t.table.set (t.hash_func.hash key).toNat c1).getD
        (t.hash_func.hash key).toNat []) = _
      rw [listGetD_set_self _ _ _ _ hidx]
      exact hfind
    · intro hcontra
      exact absurd hcontra hsne
    · intro _
      have hfl := flatten_length_set t.table (t.hash_func.hash key).toNat c1 hidx
      have hc1len : c1.length = (t.table.getD (t.hash_func.hash key).toNat []).length := by
        have := congrArg List.length hmap
        simpa using this
      show ((t.table.set (t.hash_func.hash key).toNat c1).flatten.length : Int)
        = (t.table.flatten.length : Int)
      omega
    · intro hp j kv hkv
      by_cases hj : j = (t.hash_func.hash key).toNat
      · subst hj
        rw [listGetD_set_self _ _ _ _ hidx] at hkv
        rcases hmem kv hkv with h1 | h1
        · exact hp _ kv h1
        · rw [h1]
      · rw [listGetD_set_of_ne _ _ _ _ _ (fun h => hj h.symm)] at hkv
        exact hp j kv hkv
    · intro hb j
      by_cases hj : j = (t.hash_func.hash key).toNat
      · subst hj
        rw [listGetD_set_self _ _ _ _ hidx, hmap]
        exact hb _
      · rw [listGetD_set_of_ne _ _ _ _ _ (fun h => hj h.symm)]
        exact hb j
  · have hkeyout : key ∉ (t.table.getD (t.hash_func.hash key).toNat []).map Prod.fst := by
      intro hmem1
      obtain ⟨kv, hkv, hfst⟩ := List.mem_map.mp hmem1
      exact ((chainFind_eq_none_iff key _).mp hnone kv hkv) hfst
    have happ : ∀ k1, k1 ≠ key →
        chainFind k1 ((t.table.getD (t.hash_func.hash key).toNat []) ++ [(key, value)])
          = chainFind k1 (t.table.getD (t.hash_func.hash key).toNat []) := by
      intro k1 hk1
      cases hfk : chainFind k1 (t.table.getD (t.hash_func.hash key).toNat []) with
      | some v1 => exact chainFind_append_some _ _ _ _ hfk
      | none =>
        rw [chainFind_append_none _ _ _ hfk]
        simp [chainFind, Ne.symm hk1]
    rw [hs]
    refine ⟨rfl, rfl, rfl, rfl, rfl, rfl, rfl, rfl, by simp,
      (show t.num_collisions ≤ t.num_collisions + n by rcases hn with h | h <;> omega),
      ?_, ?_, ?_, ?_, ?_, ?_⟩
    · intro k1 hk1
      rw [search_def, search_def]
      show chainFind k1 ((t.table.set (t.hash_func.hash key).toNat _).getD
        (t.hash_func.hash k1).toNat []) = _
      by_cases hj : (t.hash_func.hash k1).toNat = (t.hash_func.hash key).toNat
      · rw [hj, listGetD_set_self _ _ _ _ hidx]
        exact happ k1 hk1
      · rw [listGetD_set_of_ne _ _ _ _ _ (fun h => hj h.symm)]
    · rw [search_def]
      show chainFind key ((t.table.set (t.hash_func.hash key).toNat _).getD
        (t.hash_func.hash key).toNat []) = _
      rw [listGetD_set_self _ _ _ _ hidx]
      rw [chainFind_append_none _ _ _ hnone]
      simp [chainFind]
    · intro _
      have hfl := flatten_length_set t.table (t.hash_func.hash key).toNat
        ((t.table.getD (t.hash_func.hash key).toNat []) ++ [(key, value)]) hidx
      show ((t.table.set (t.hash_func.hash key).toNat
          ((t.table.getD (t.hash_func.hash key).toNat []) ++ [(key, value)])).flatten.length : Int)
        = (t.table.flatten.length : Int) + 1
      simp only [List.length_append, List.length_cons, List.length_nil] at hfl
      omega
    · intro hcontra
      exact absurd (by rw [search_def]; exact hnone) hcontra
    · intro hp j kv hkv
      by_cases hj : j = (t.hash_func.hash key).toNat
      · subst hj
        rw [listGetD_set_self _ _ _ _ hidx] at hkv
        rcases List.mem_append.mp hkv with h1 | h1
        · exact hp _ kv h1
        · rw [List.mem_singleton.mp h1]
      · rw [listGetD_set_of_ne _ _ _ _ _ (fun h => hj h.symm)] at hkv
        exact hp j kv hkv
    · intro hb j
      by_cases hj : j = (t.hash_func.hash key).toNat
      · subst hj
        rw [listGetD_set_self _ _ _ _ hidx, List.map_append]
        rw [List.nodup_append]
        refine ⟨hb _, by simp, ?_⟩
        intro a ha1 ha2
        simp only [List.map_cons, List.map_nil, List.mem_singleton] at ha2
        rw [ha2] at ha1
        exact hkeyout ha1
      · rw [listGetD_set_of_ne _ _ _ _ _ (fun h => hj h.symm)]
        exact hb j

theorem chainFind_cons (key : Int) (kv : Int × V) (rest : List (Int × V)) :
    chainFind key (kv :: rest) = if kv.1 = key then some kv.2 else chainFind key rest := by
  obtain ⟨k, v⟩ := kv
  rfl

/-- Specification of the rehashing fold used by `_resize`: folding
`_insert_no_resize` over a list of entries with pairwise-distinct keys, all
absent from the starting state. -/
theorem fold_ins_spec (es : List (Int × V)) :
    ∀ (s : HashTableChaining V),
    0 < s.capacity → s.table.length = s.capacity.toNat → s.hash_func.m = s.capacity →
    (∀ j, ∀ kv ∈ s.table.getD j [], (s.hash_func.hash kv.1).toNat = j) →
    (∀ j, ((s.table.getD j []).map Prod.fst).Nodup) →
    (es.map Prod.fst).Nodup →
    (∀ kv ∈ es, s.search kv.1 = none) →
    ((es.foldl (fun acc kv => acc._insert_no_resize kv.1 kv.2) s).capacity = s.capacity ∧
     (es.foldl (fun acc kv => acc._insert_no_resize kv.1 kv.2) s).max_load_factor
        = s.max_load_factor ∧
     (es.foldl (fun acc kv => acc._insert_no_resize kv.1 kv.2) s).size = s.size ∧
     (es.foldl (fun acc kv => acc._insert_no_resize kv.1 kv.2) s).hash_func = s.hash_func ∧
     (es.foldl (fun acc kv => acc._insert_no_resize kv.1 kv.2) s).num_resizes
        = s.num_resizes ∧
     (es.foldl (fun acc kv => acc._insert_no_resize kv.1 kv.2) s).rngA = s.rngA ∧
     (es.foldl (fun acc kv => acc._insert_no_resize kv.1 kv.2) s).rngB = s.rngB ∧
     (es.foldl (fun acc kv => acc._insert_no_resize kv.1 kv.2) s).rngIdx = s.rngIdx ∧
     s.num_collisions
        ≤ (es.foldl (fun acc kv => acc._insert_no_resize kv.1 kv.2) s).num_collisions ∧
     (es.foldl (fun acc kv => acc._insert_no_resize kv.1 kv.2) s).table.length
        = s.table.length ∧
     (∀ j, ∀ kv ∈ (es.foldl (fun acc kv => acc._insert_no_resize kv.1 kv.2) s).table.getD j [],
        (s.hash_func.hash kv.1).toNat = j) ∧
     (∀ j, (((es.foldl (fun acc kv => acc._insert_no_resize kv.1 kv.2) s).table.getD j
        []).map Prod.fst).Nodup) ∧
     (((es.foldl (fun acc kv => acc._insert_no_resize kv.1 kv.2) s).table.flatten.length : Int)
        = (s.table.flatten.length : Int) + es.length) ∧
     (∀ k1 v1, chainFind k1 es = some v1 →
        (es.foldl (fun acc kv => acc._insert_no_resize kv.1 kv.2) s).search k1 = some v1) ∧
     (∀ k1, chainFind k1 es = none →
        (es.foldl (fun acc kv => acc._insert_no_resize kv.1 kv.2) s).search k1
          = s.search k1)) := by
  induction es with
  | nil =>
    intro s hcap hlen hm hp hb _ _
    refine ⟨rfl, rfl, rfl, rfl, rfl, rfl, rfl, rfl, le_refl _, rfl, hp, hb, by simp, ?_, ?_⟩
    · intro k1 v1 hfind
      exact absurd hfind (by simp [chainFind])
    · intro k1 _
      rfl
  | cons kv es1 ih =>
    intro s hcap hlen hm hp hb hnd hdisj
    obtain ⟨icap, imlf, isize, ifunc, iresz, irngA, irngB, irngIdx, ilen, icoll, iother,
      ikey, iflat1, iflat2, iplaced, inodup⟩ :=
      ins_no_resize_spec s kv.1 kv.2 hcap hlen hm
    have hnd1 : (es1.map Prod.fst).Nodup := by
      simp only [List.map_cons, List.nodup_cons] at hnd
      exact hnd.2
    have hheadout : kv.1 ∉ es1.map Prod.fst := by
      simp only [List.map_cons, List.nodup_cons] at hnd
      exact hnd.1
    have hs1cap : (s._insert_no_resize kv.1 kv.2).capacity = s.capacity := icap
    have hs1func : (s._insert_no_resize kv.1 kv.2).hash_func = s.hash_func := ifunc
    have hdisj1 : ∀ kv1 ∈ es1, (s._insert_no_resize kv.1 kv.2).search kv1.1 = none := by
      intro kv1 hkv1
      have hne : kv1.1 ≠ kv.1 := by
        intro hcontra
        exact hheadout (hcontra ▸ List.mem_map_of_mem Prod.fst hkv1)
      rw [iother kv1.1 hne]
      exact hdisj kv1 (List.mem_cons_of_mem _ hkv1)
    have hsearch_head : s.search kv.1 = none := hdisj kv (List.mem_cons_self _ _)
    obtain ⟨jcap, jmlf, jsize, jfunc, jresz, jrngA, jrngB, jrngIdx, jcoll, jlen, jplaced,
      jnodup, jflat, jsome, jnone⟩ :=
      ih (s._insert_no_resize kv.1 kv.2)
        (by rw [icap]; exact hcap)
        (by rw [ilen, icap]; exact hlen)
        (by rw [ifunc, icap]; exact hm)
        (by rw [ifunc]; exact iplaced hp)
        (inodup hb) hnd1 hdisj1
    simp only [List.foldl_cons]
    refine ⟨by rw [jcap, icap], by rw [jmlf, imlf], by rw [jsize, isize],
      by rw [jfunc, ifunc], by rw [jresz, iresz], by rw [jrngA, irngA],
      by rw [jrngB, irngB], by rw [jrngIdx, irngIdx],
      le_trans icoll jcoll, by rw [jlen, ilen],
      by rw [← ifunc]; exact jplaced, jnodup, ?_, ?_, ?_⟩
    · rw [jflat, iflat1 hsearch_head]
      simp only [List.length_cons]
      push_cast
      ring
    · intro k1 v1 hfind
      rw [chainFind_cons] at hfind
      by_cases hk : kv.1 = k1
      · rw [if_pos hk] at hfind
        have hv1 : v1 = kv.2 := (Option.some.inj hfind).symm
        have hnotail : chainFind k1 es1 = none := by
          rw [chainFind_eq_none_iff]
          intro kv1 hkv1 hfst
          exact hheadout (by rw [hk, ← hfst]; exact List.mem_map_of_mem Prod.fst hkv1)
        rw [jnone k1 hnotail, hv1, ← hk]
        exact ikey
      · rw [if_neg hk] at hfind
        exact jsome k1 v1 hfind
    · intro k1 hfind
      rw [chainFind_cons] at hfind
      have hk : kv.1 ≠ k1 := by
        intro hcontra
        rw [if_pos hcontra] at hfind
        exact Option.noConfusion hfind
      rw [if_neg hk] at hfind
      rw [jnone k1 hfind]
      exact iother k1 (Ne.symm hk)

/-- Master specification of `_resize`: it preserves the invariant, sets the
capacity to the requested value, preserves the observable content (`search`),
keeps `size`, increments the resize counter by exactly one, and never
decreases the cumulative collision counter. -/
theorem resize_spec (t : HashTableChaining V) (c : Int) (h : Inv t) (hc : 0 < c) :
    Inv (t._resize c) ∧
    (t._resize c).capacity = c ∧
    (t._resize c).max_load_factor = t.max_load_factor ∧
    (t._resize c).size = t.size ∧
    (t._resize c).num_resizes = t.num_resizes + 1 ∧
    t.num_collisions ≤ (t._resize c).num_collisions ∧
    (∀ k1, (t._resize c).search k1 = t.search k1) := by
  have hresize : t._resize c =
      { (t.table.flatten.foldl (fun acc kv => acc._insert_no_resize kv.1 kv.2)
          ({ capacity := c, max_load_factor := t.max_load_factor, size := 0,
             table := List.replicate c.toNat [],
             hash_func := mkUniversalHashFunction c (t.rngA t.rngIdx) (t.rngB t.rngIdx),
             num_collisions := t.num_collisions, num_resizes := t.num_resizes + 1,
             rngA := t.rngA, rngB := t.rngB,
             rngIdx := t.rngIdx + 1 } : HashTableChaining V))
        with size := t.size } := by
    simp only [_resize]
    rw [← List.foldl_flatten]
  set s3 : HashTableChaining V :=
    { capacity := c, max_load_factor := t.max_load_factor, size := 0,
      table := List.replicate c.toNat [],
      hash_func := mkUniversalHashFunction c (t.rngA t.rngIdx) (t.rngB t.rngIdx),
      num_collisions := t.num_collisions, num_resizes := t.num_resizes + 1,
      rngA := t.rngA, rngB := t.rngB, rngIdx := t.rngIdx + 1 } with hs3
  have hesnodup : ((t.table.flatten).map Prod.fst).Nodup := by
    refine flatten_keys_nodup (fun k => (t.hash_func.hash k).toNat) t.table 0 h.bnodup ?_
    intro j kv hkv
    have := h.placed j kv hkv
    show (t.hash_func.hash kv.1).toNat = j + 0
    omega
  have hs3search : ∀ k1, s3.search k1 = none := by
    intro k1
    rw [search_def, hs3]
    show chainFind k1 ((List.replicate c.toNat []).getD _ []) = none
    rw [listGetD_replicate_nil]
    rfl
  obtain ⟨jcap, jmlf, jsize, jfunc, jresz, jrngA, jrngB, jrngIdx, jcoll, jlen, jplaced,
      jnodup, jflat, jsome, jnone⟩ :=
    fold_ins_spec t.table.flatten s3
      (by rw [hs3]; exact hc)
      (by rw [hs3]; simp)
      (by rw [hs3]; rfl)
      (by
        intro j kv hkv
        rw [hs3] at hkv
        simp only [listGetD_replicate_nil] at hkv
        exact absurd hkv (List.not_mem_nil kv))
      (by
        intro j
        rw [hs3]
        simp only [listGetD_replicate_nil]
        exact List.nodup_nil)
      hesnodup
      (fun kv _ => hs3search kv.1)
  have htsearch : ∀ k1, t.search k1 = chainFind k1 t.table.flatten := by
    intro k1
    rw [search_def]
    refine (chainFind_flatten k1 t.table ((t.hash_func.hash k1).toNat) ?_).symm
    intro j hj kv hkv hfst
    exact hj (by rw [← h.placed j kv hkv, hfst])
  have hflat0 : s3.table.flatten.length = 0 := by
    rw [hs3]
    show (List.replicate c.toNat ([] : List (Int × V))).flatten.length = 0
    rw [flatten_replicate_nil]
    rfl
  rw [hresize]
  refine ⟨?_, jcap, jmlf, rfl, jresz, jcoll, ?_⟩
  · refine ⟨?_, ?_, ?_, ?_, ?_, ?_⟩
    · show 0 < (t.table.flatten.foldl (fun acc kv => acc._insert_no_resize kv.1 kv.2)
        s3).capacity
      rw [jcap]
      exact hc
    · show (t.table.flatten.foldl (fun acc kv => acc._insert_no_resize kv.1 kv.2)
        s3).table.length = _
      rw [jlen, jcap]
      rw [hs3]
      simp
    · show (t.table.flatten.foldl (fun acc kv => acc._insert_no_resize kv.1 kv.2)
        s3).hash_func.m = _
      rw [jfunc, jcap]
      rw [hs3]
      rfl
    · show ∀ j, ∀ kv ∈ (t.table.flatten.foldl (fun acc kv => acc._insert_no_resize kv.1 kv.2)
        s3).table.getD j [], _
      intro j kv hkv
      show ((t.table.flatten.foldl (fun acc kv => acc._insert_no_resize kv.1 kv.2)
        s3).hash_func.hash kv.1).toNat = j
      rw [jfunc]
      exact jplaced j kv hkv
    · exact jnodup
    · show t.size = ((t.table.flatten.foldl (fun acc kv => acc._insert_no_resize kv.1 kv.2)
        s3).table.flatten.length : Int)
      rw [h.size_eq]
      omega
  · intro k1
    show (t.table.flatten.foldl (fun acc kv => acc._insert_no_resize kv.1 kv.2)
      s3).search k1 = t.search k1
    cases hes : chainFind k1 t.table.flatten with
    | some v1 => rw [jsome k1 v1 hes, htsearch k1, hes]
    | none => rw [jnone k1 hes, hs3search k1, htsearch k1, hes]

/-- `insert` is the resize-or-not prefix followed by exactly the
`_insert_no_resize` body, with `size` additionally incremented when (and only
when) the key was absent from the pre-insertion state. -/
theorem insert_eq (t : HashTableChaining V) (key : Int) (value : V) :
    ((if t._get_load_factor ≥ t.max_load_factor
        then t._resize (t.capacity * 2) else t).search key = none →
      t.insert key value
        = { (if t._get_load_factor ≥ t.max_load_factor
              then t._resize (t.capacity * 2) else t)._insert_no_resize key value
            with size := (if t._get_load_factor ≥ t.max_load_factor
              then t._resize (t.capacity * 2) else t).size + 1 }) ∧
    ((if t._get_load_factor ≥ t.max_load_factor
        then t._resize (t.capacity * 2) else t).search key ≠ none →
      t.insert key value
        = (if t._get_load_factor ≥ t.max_load_factor
            then t._resize (t.capacity * 2) else t)._insert_no_resize key value) := by
  simp only [insert, _insert_no_resize, search_def]
  generalize (if t._get_load_factor ≥ t.max_load_factor
    then t._resize (t.capacity * 2) else t) = t0
  cases hu : chainUpdate key value (t0.table.getD (t0.hash_func.hash key).toNat []) with
  | some c1 =>
    constructor
    · intro hnone
      rw [(chainUpdate_eq_none_iff key value _).mpr hnone] at hu
      exact Option.noConfusion hu
    · intro _
      simp only [hu]
  | none =>
    constructor
    · intro _
      simp only [hu]
      by_cases h0 : 0 < (t0.table.getD (t0.hash_func.hash key).toNat []).length
      · rw [if_pos h0]
      · rw [if_neg h0]
    · intro hne
      exact absurd ((chainUpdate_eq_none_iff key value _).mp hu) hne

/-- Master step lemma for the public `insert`: preserves the invariant,
updates `search` pointwise, and adjusts `size` by one exactly when the key
was previously absent. -/
theorem insert_spec (t : HashTableChaining V) (key : Int) (value : V) (h : Inv t) :
    Inv (t.insert key value) ∧
    (∀ k1, k1 ≠ key → (t.insert key value).search k1 = t.search k1) ∧
    ((t.insert key value).search key = some value) ∧
    (t.search key = none → (t.insert key value).size = t.size + 1) ∧
    (t.search key ≠ none → (t.insert key value).size = t.size) ∧
    (t.insert key value).max_load_factor = t.max_load_factor := by
  obtain ⟨heqnone, heqsome⟩ := insert_eq t key value
  have ht0 : Inv (if t._get_load_factor ≥ t.max_load_factor
        then t._resize (t.capacity * 2) else t) ∧
      (∀ k1, (if t._get_load_factor ≥ t.max_load_factor
        then t._resize (t.capacity * 2) else t).search k1 = t.search k1) ∧
      (if t._get_load_factor ≥ t.max_load_factor
        then t._resize (t.capacity * 2) else t).size = t.size ∧
      (if t._get_load_factor ≥ t.max_load_factor
        then t._resize (t.capacity * 2) else t).max_load_factor = t.max_load_factor := by
    by_cases hres : t._get_load_factor ≥ t.max_load_factor
    · rw [if_pos hres]
      obtain ⟨hi, _, hmlf, hsz, _, _, hse⟩ :=
        resize_spec t (t.capacity * 2) h (by have := h.cap_pos; omega)
      exact ⟨hi, hse, hsz, hmlf⟩
    · rw [if_neg hres]
      exact ⟨h, fun _ => rfl, rfl, rfl⟩
  set t0 := (if t._get_load_factor ≥ t.max_load_factor
    then t._resize (t.capacity * 2) else t) with ht0def
  obtain ⟨h0inv, h0search, h0size, h0mlf⟩ := ht0
  obtain ⟨icap, imlf, isize, ifunc, iresz, irngA, irngB, irngIdx, ilen, icoll, iother,
      ikey, iflat1, iflat2, iplaced, inodup⟩ :=
    ins_no_resize_spec t0 key value h0inv.cap_pos h0inv.len_eq h0inv.hm
  have hkeyeq : t.search key = t0.search key := (h0search key).symm
  cases hkey : t0.search key with
  | none =>
    rw [heqnone hkey]
    refine ⟨⟨?_, ?_, ?_, ?_, ?_, ?_⟩, ?_, ?_, ?_, ?_, ?_⟩
    · show 0 < (t0._insert_no_resize key value).capacity
      rw [icap]
      exact h0inv.cap_pos
    · show (t0._insert_no_resize key value).table.length
        = (t0._insert_no_resize key value).capacity.toNat
      rw [ilen, icap]
      exact h0inv.len_eq
    · show (t0._insert_no_resize key value).hash_func.m
        = (t0._insert_no_resize key value).capacity
      rw [ifunc, icap]
      exact h0inv.hm
    · show ∀ j, ∀ kv ∈ (t0._insert_no_resize key value).table.getD j [],
        ((t0._insert_no_resize key value).hash_func.hash kv.1).toNat = j
      rw [ifunc]
      exact iplaced h0inv.placed
    · exact inodup h0inv.bnodup
    · show t0.size + 1 = ((t0._insert_no_resize key value).table.flatten.length : Int)
      rw [iflat1 hkey, ← h0inv.size_eq]
    · intro k1 hk1
      show (t0._insert_no_resize key value).search k1 = t.search k1
      rw [iother k1 hk1]
      exact h0search k1
    · exact ikey
    · intro _
      show t0.size + 1 = t.size + 1
      rw [h0size]
    · intro hne
      rw [hkeyeq] at hne
      exact absurd hkey hne
    · show (t0._insert_no_resize key value).max_load_factor = t.max_load_factor
      rw [imlf]
      exact h0mlf
  | some v0 =>
    have hkeyne : t0.search key ≠ none := by rw [hkey]; exact Option.noConfusion
    rw [heqsome hkeyne]
    refine ⟨⟨?_, ?_, ?_, ?_, ?_, ?_⟩, ?_, ?_, ?_, ?_, ?_⟩
    · rw [icap]
      exact h0inv.cap_pos
    · rw [ilen, icap]
      exact h0inv.len_eq
    · rw [ifunc, icap]
      exact h0inv.hm
    · show ∀ j, ∀ kv ∈ (t0._insert_no_resize key value).table.getD j [],
        ((t0._insert_no_resize key value).hash_func.hash kv.1).toNat = j
      rw [ifunc]
      exact iplaced h0inv.placed
    · exact inodup h0inv.bnodup
    · rw [isize, iflat2 hkeyne, ← h0inv.size_eq]
    · intro k1 hk1
      rw [iother k1 hk1]
      exact h0search k1
    · exact ikey
    · intro hcontra
      rw [hkeyeq, hkey] at hcontra
      exact Option.noConfusion hcontra
    · intro _
      rw [isize]
      exact h0size
    · rw [imlf]
      exact h0mlf

/-- Master step lemma for `delete`: a missing key leaves the state literally
unchanged and returns `false`; a present key is removed (stopping `search`
from finding it), decrements `size` by one, and triggers the halving shrink
(with its resize-counter increment) exactly when the shrink condition holds
after the removal.  The resulting capacity of a shrink is at least `8`. -/
theorem delete_spec (t : HashTableChaining V) (key : Int) (h : Inv t) :
    Inv (t.delete key).1 ∧
    (t.search key = none → t.delete key = (t, false)) ∧
    (t.search key ≠ none →
      (t.delete key).2 = true ∧
      (t.delete key).1.search key = none ∧
      (∀ k1, k1 ≠ key → (t.delete key).1.search k1 = t.search k1) ∧
      (t.delete key).1.size = t.size - 1 ∧
      (t.delete key).1.max_load_factor = t.max_load_factor ∧
      (shrinkCondition t →
        (t.delete key).1.capacity = t.capacity / 2 ∧
        (t.delete key).1.num_resizes = t.num_resizes + 1 ∧
        8 ≤ (t.delete key).1.capacity) ∧
      (¬ shrinkCondition t →
        (t.delete key).1.capacity = t.capacity ∧
        (t.delete key).1.num_resizes = t.num_resizes)) := by
  have hidx : (t.hash_func.hash key).toNat < t.table.length := index_lt t key h
  cases hp : chainPop key (t.table.getD (t.hash_func.hash key).toNat []) with
  | none =>
    have hfound : t.search key = none := by
      rw [search_def]
      exact (chainPop_eq_none_iff key _).mp hp
    have hdel : t.delete key = (t, false) := by
      simp only [delete, hp]
    rw [hdel]
    exact ⟨h, fun _ => rfl, fun hne => absurd hfound hne⟩
  | some c1 =>
    obtain ⟨hsub, hlen1, hother, hnone⟩ := chainPop_some_spec key _ c1 hp
    have hfound : t.search key ≠ none := by
      rw [search_def]
      intro hcontra
      rw [(chainPop_eq_none_iff key _).mpr hcontra] at hp
      exact Option.noConfusion hp
    set t1 : HashTableChaining V :=
      { t with table := t.table.set (t.hash_func.hash key).toNat c1
               size := t.size - 1 } with ht1
    have ht1inv : Inv t1 := by
      refine ⟨h.cap_pos, by simpa using h.len_eq, h.hm, ?_, ?_, ?_⟩
      · intro j kv hkv
        show (t.hash_func.hash kv.1).toNat = j
        by_cases hj : j = (t.hash_func.hash key).toNat
        · subst hj
          rw [show t1.table = t.table.set (t.hash_func.hash key).toNat c1 from rfl,
            listGetD_set_self _ _ _ _ hidx] at hkv
          exact h.placed _ kv (hsub.mem hkv)
        · rw [show t1.table = t.table.set (t.hash_func.hash key).toNat c1 from rfl,
            listGetD_set_of_ne _ _ _ _ _ (fun h1 => hj h1.symm)] at hkv
          exact h.placed j kv hkv
      · intro j
        by_cases hj : j = (t.hash_func.hash key).toNat
        · subst hj
          show (((t.table.set (t.hash_func.hash key).toNat c1).getD
            (t.hash_func.hash key).toNat []).map Prod.fst).Nodup
          rw [listGetD_set_self _ _ _ _ hidx]
          exact (h.bnodup _).sublist (hsub.map Prod.fst)
        · show (((t.table.set (t.hash_func.hash key).toNat c1).getD j []).map Prod.fst).Nodup
          rw [listGetD_set_of_ne _ _ _ _ _ (fun h1 => hj h1.symm)]
          exact h.bnodup j
      · show t.size - 1
          = (((t.table.set (t.hash_func.hash key).toNat c1).flatten.length : Nat) : Int)
        have hfl := flatten_length_set t.table (t.hash_func.hash key).toNat c1 hidx
        have hsz := h.size_eq
        omega
    have ht1search_key : t1.search key = none := by
      rw [search_def]
      show chainFind key ((t.table.set (t.hash_func.hash key).toNat c1).getD
        (t.hash_func.hash key).toNat []) = none
      rw [listGetD_set_self _ _ _ _ hidx]
      exact hnone (h.bnodup _)
    have ht1search_other : ∀ k1, k1 ≠ key → t1.search k1 = t.search k1 := by
      intro k1 hk1
      rw [search_def, search_def]
      show chainFind k1 ((t.table.set (t.hash_func.hash key).toNat c1).getD
        (t.hash_func.hash k1).toNat []) = _
      by_cases hj : (t.hash_func.hash k1).toNat = (t.hash_func.hash key).toNat
      · rw [hj, listGetD_set_self _ _ _ _ hidx]
        exact hother k1 hk1
      · rw [listGetD_set_of_ne _ _ _ _ _ (fun h1 => hj h1.symm)]
    have hcondiff :
        (0 < t1.size ∧ t1._get_load_factor < (1 / 4 : ℚ) ∧ 16 < t1.capacity)
        ↔ shrinkCondition t := by
      unfold shrinkCondition
      have hlf : t1._get_load_factor = ((t.size : ℚ) - 1) / (t.capacity : ℚ) := by
        unfold _get_load_factor
        rw [show t1.capacity = t.capacity from rfl, show t1.size = t.size - 1 from rfl,
          if_pos h.cap_pos]
        push_cast
        rfl
      rw [hlf, show t1.capacity = t.capacity from rfl, show t1.size = t.size - 1 from rfl]
    have hdel : t.delete key
        = (if 0 < t1.size ∧ t1._get_load_factor < (1 / 4 : ℚ) ∧ 16 < t1.capacity
           then t1._resize (t1.capacity / 2) else t1, true) := by
      rw [ht1]
      simp only [delete, hp]
    by_cases hcond : shrinkCondition t
    · have hcond1 := hcondiff.mpr hcond
      rw [hdel, if_pos hcond1]
      have hc2pos : 0 < t1.capacity / 2 := by
        have h16 : (16 : Int) < t.capacity := hcond.2.2
        show 0 < t.capacity / 2
        omega
      obtain ⟨rinv, rcap, rmlf, rsize, rresz, _, rsearch⟩ :=
        resize_spec t1 (t1.capacity / 2) ht1inv hc2pos
      refine ⟨rinv, fun hc => absurd hc hfound, fun _ => ⟨rfl, ?_, ?_, ?_, ?_, ?_, ?_⟩⟩
      · rw [rsearch key]
        exact ht1search_key
      · intro k1 hk1
        rw [rsearch k1]
        exact ht1search_other k1 hk1
      · rw [rsize]
      · exact rmlf
      · intro _
        refine ⟨rcap, rresz, ?_⟩
        have h16 : (16 : Int) < t.capacity := hcond.2.2
        rw [rcap]
        show (8 : Int) ≤ t.capacity / 2
        omega
      · intro hcontra
        exact absurd hcond hcontra
    · have hcond1 := (Iff.not hcondiff).mpr hcond
      rw [hdel, if_neg hcond1]
      refine ⟨ht1inv, fun hc => absurd hc hfound, fun _ => ⟨rfl, ht1search_key,
        ht1search_other, rfl, rfl, ?_, fun _ => ⟨rfl, rfl⟩⟩⟩
      intro hc
      exact absurd hc hcond

/-- The invariant holds for a freshly constructed table with positive
capacity. -/
theorem init_inv (cap : Int) (mlf : ℚ) (rA rB : Nat → Int) (hcap : 0 < cap) :
    Inv (init (V := V) cap mlf rA rB) := by
  refine ⟨hcap, by simp [init], rfl, ?_, ?_, ?_⟩
  · intro j kv hkv
    rw [show (init (V := V) cap mlf rA rB).table = List.replicate cap.toNat [] from rfl,
      listGetD_replicate_nil] at hkv
    exact absurd hkv (List.not_mem_nil kv)
  · intro j
    rw [show (init (V := V) cap mlf rA rB).table = List.replicate cap.toNat [] from rfl,
      listGetD_replicate_nil]
    exact List.nodup_nil
  · show (0 : Int) = _
    rw [show (init (V := V) cap mlf rA rB).table = List.replicate cap.toNat [] from rfl,
      flatten_replicate_nil]
    rfl

/-- Fresh tables report `search = none` for every key. -/
theorem init_search (cap : Int) (mlf : ℚ) (rA rB : Nat → Int) (key : Int) :
    (init (V := V) cap mlf rA rB).search key = none := by
  rw [search_def]
  rw [show (init (V := V) cap mlf rA rB).table = List.replicate cap.toNat [] from rfl,
    listGetD_replicate_nil]
  rfl

/-- Each public operation preserves the invariant. -/
theorem step_inv (t : HashTableChaining V) (op : TableOp V) (h : Inv t) :
    Inv (t.step op) := by
  cases op with
  | ins k v => exact (insert_spec t k v h).1
  | del k => exact (delete_spec t k h).1

/-- Every state reachable by public operations from an invariant state
satisfies the invariant. -/
theorem run_inv (t : HashTableChaining V) (ops : List (TableOp V)) (h : Inv t) :
    Inv (t.run ops) := by
  induction ops generalizing t with
  | nil => exact h
  | cons op rest ih =>
    simp only [run, List.foldl_cons]
    exact ih _ (step_inv t op h)

/-- Unfolding step for `lastInserted` with a non-trivial accumulator. -/
theorem lastInserted_aux (ps : List (Int × V)) (key : Int) :
    ∀ acc : Option V,
    ps.foldl (fun a p => if p.1 = key then some p.2 else a) acc
      = (lastInserted ps key).or acc := by
  induction ps with
  | nil => intro acc; rfl
  | cons p rest ih =>
    intro acc
    show rest.foldl (fun a p => if p.1 = key then some p.2 else a)
        (if p.1 = key then some p.2 else acc)
      = (lastInserted (p :: rest) key).or acc
    rw [ih]
    have h1 : lastInserted (p :: rest) key
        = (lastInserted rest key).or (if p.1 = key then some p.2 else none) := by
      show rest.foldl (fun a p => if p.1 = key then some p.2 else a)
          (if p.1 = key then some p.2 else none) = _
      rw [ih]
    rw [h1, Option.or_assoc]
    by_cases hp : p.1 = key
    · rw [if_pos hp, if_pos hp, Option.or_some]
    · rw [if_neg hp, if_neg hp]
      rfl

/-- Round-trip: running a sequence of inserts from an invariant state, the
table reports the last value inserted for each key (and falls back to the
prior content for keys the sequence never inserted). -/
theorem run_inserts_search (ps : List (Int × V)) :
    ∀ (t : HashTableChaining V), Inv t → ∀ key,
    (ps.foldl (fun acc p => acc.insert p.1 p.2) t).search key
      = (lastInserted ps key).or (t.search key) := by
  induction ps with
  | nil => intro t _ key; rfl
  | cons p rest ih =>
    intro t h key
    obtain ⟨hinv1, hother, hkey, _, _, _⟩ := insert_spec t p.1 p.2 h
    show (rest.foldl (fun acc p => acc.insert p.1 p.2) (t.insert p.1 p.2)).search key
      = (lastInserted (p :: rest) key).or (t.search key)
    rw [ih (t.insert p.1 p.2) hinv1 key]
    have h1 : lastInserted (p :: rest) key
        = (lastInserted rest key).or (if p.1 = key then some p.2 else none) := by
      show rest.foldl (fun a p => if p.1 = key then some p.2 else a)
          (if p.1 = key then some p.2 else none) = _
      rw [lastInserted_aux]
    rw [h1, Option.or_assoc]
    have h2 : (t.insert p.1 p.2).search key
        = ((if p.1 = key then some p.2 else none).or (t.search key)) := by
      by_cases hp : p.1 = key
      · rw [if_pos hp, ← hp]
        rw [hkey]
        rfl
      · rw [if_neg hp]
        rw [hother key (fun h1 => hp h1.symm)]
        rfl
    rw [h2]

/-- `_insert_no_resize` never touches capacity, load-factor setting, `size` or
the resize counter, and never decreases the collision counter (no
well-formedness assumptions needed). -/
theorem ins_no_resize_frame (t : HashTableChaining V) (key : Int) (value : V) :
    (t._insert_no_resize key value).capacity = t.capacity ∧
    (t._insert_no_resize key value).max_load_factor = t.max_load_factor ∧
    (t._insert_no_resize key value).size = t.size ∧
    (t._insert_no_resize key value).num_resizes = t.num_resizes ∧
    t.num_collisions ≤ (t._insert_no_resize key value).num_collisions := by
  rcases ins_no_resize_cases t key value with ⟨c1, _, hs⟩ | ⟨_, n, hn, hs⟩ <;> rw [hs]
  · exact ⟨rfl, rfl, rfl, rfl, le_refl _⟩
  · exact ⟨rfl, rfl, rfl, rfl,
      show t.num_collisions ≤ t.num_collisions + n by rcases hn with h | h <;> omega⟩

/-- Frame of the rehashing fold, with no well-formedness assumptions. -/
theorem fold_ins_frame (es : List (Int × V)) :
    ∀ s : HashTableChaining V,
    (es.foldl (fun acc kv => acc._insert_no_resize kv.1 kv.2) s).capacity = s.capacity ∧
    (es.foldl (fun acc kv => acc._insert_no_resize kv.1 kv.2) s).max_load_factor
      = s.max_load_factor ∧
    (es.foldl (fun acc kv => acc._insert_no_resize kv.1 kv.2) s).size = s.size ∧
    (es.foldl (fun acc kv => acc._insert_no_resize kv.1 kv.2) s).num_resizes
      = s.num_resizes ∧
    s.num_collisions
      ≤ (es.foldl (fun acc kv => acc._insert_no_resize kv.1 kv.2) s).num_collisions := by
  induction es with
  | nil => intro s; exact ⟨rfl, rfl, rfl, rfl, le_refl _⟩
  | cons kv rest ih =>
    intro s
    obtain ⟨icap, imlf, isz, iresz, icoll⟩ := ins_no_resize_frame s kv.1 kv.2
    obtain ⟨jcap, jmlf, jsz, jresz, jcoll⟩ := ih (s._insert_no_resize kv.1 kv.2)
    simp only [List.foldl_cons]
    exact ⟨jcap.trans icap, jmlf.trans imlf, jsz.trans isz, jresz.trans iresz,
      le_trans icoll jcoll⟩

/-- `_resize` written as a single fold over the flattened old table, starting
from the cleared state. -/
theorem resize_unfold (t : HashTableChaining V) (c : Int) :
    t._resize c =
      { (t.table.flatten.foldl (fun acc kv => acc._insert_no_resize kv.1 kv.2)
          ({ capacity := c, max_load_factor := t.max_load_factor, size := 0,
             table := List.replicate c.toNat [],
             hash_func := mkUniversalHashFunction c (t.rngA t.rngIdx) (t.rngB t.rngIdx),
             num_collisions := t.num_collisions, num_resizes := t.num_resizes + 1,
             rngA := t.rngA, rngB := t.rngB,
             rngIdx := t.rngIdx + 1 } : HashTableChaining V))
        with size := t.size } := by
  simp only [_resize]
  rw [← List.foldl_flatten]

/-- Frame of `_resize`, with no well-formedness assumptions: sets the
capacity, preserves `size` and `max_load_factor`, increments the resize
counter by exactly one, and never decreases the collision counter. -/
theorem resize_frame (t : HashTableChaining V) (c : Int) :
    (t._resize c).capacity = c ∧
    (t._resize c).size = t.size ∧
    (t._resize c).max_load_factor = t.max_load_factor ∧
    (t._resize c).num_resizes = t.num_resizes + 1 ∧
    t.num_collisions ≤ (t._resize c).num_collisions := by
  rw [resize_unfold]
  obtain ⟨fcap, fmlf, _, fresz, fcoll⟩ := fold_ins_frame t.table.flatten
    ({ capacity := c, max_load_factor := t.max_load_factor, size := 0,
       table := List.replicate c.toNat [],
       hash_func := mkUniversalHashFunction c (t.rngA t.rngIdx) (t.rngB t.rngIdx),
       num_collisions := t.num_collisions, num_resizes := t.num_resizes + 1,
       rngA := t.rngA, rngB := t.rngB,
       rngIdx := t.rngIdx + 1 } : HashTableChaining V)
  exact ⟨fcap, rfl, fmlf, fresz, fcoll⟩

/-- Structural behavior of `insert`'s size, load-factor setting and capacity
(no well-formedness assumptions): the size grows by zero or one, and the
capacity doubles exactly when the pre-insert load-factor check fires. -/
theorem insert_frame (t : HashTableChaining V) (key : Int) (value : V) :
    ((t.insert key value).size = t.size ∨ (t.insert key value).size = t.size + 1) ∧
    (t.insert key value).max_load_factor = t.max_load_factor ∧
    (t._get_load_factor ≥ t.max_load_factor →
      (t.insert key value).capacity = t.capacity * 2) ∧
    (¬ t._get_load_factor ≥ t.max_load_factor →
      (t.insert key value).capacity = t.capacity) := by
  obtain ⟨heqnone, heqsome⟩ := insert_eq t key value
  set t0 := (if t._get_load_factor ≥ t.max_load_factor
    then t._resize (t.capacity * 2) else t) with ht0def
  have h0 : t0.size = t.size ∧ t0.max_load_factor = t.max_load_factor ∧
      (t._get_load_factor ≥ t.max_load_factor → t0.capacity = t.capacity * 2) ∧
      (¬ t._get_load_factor ≥ t.max_load_factor → t0.capacity = t.capacity) := by
    by_cases hres : t._get_load_factor ≥ t.max_load_factor
    · rw [ht0def, if_pos hres]
      obtain ⟨rcap, rsz, rmlf, _, _⟩ := resize_frame t (t.capacity * 2)
      exact ⟨rsz, rmlf, fun _ => rcap, fun hcontra => absurd hres hcontra⟩
    · rw [ht0def, if_neg hres]
      exact ⟨rfl, rfl, fun hcontra => absurd hcontra hres, fun _ => rfl⟩
  obtain ⟨h0sz, h0mlf, h0cap1, h0cap2⟩ := h0
  obtain ⟨icap, imlf, isz, _, _⟩ := ins_no_resize_frame t0 key value
  cases hkey : t0.search key with
  | none =>
    rw [heqnone hkey]
    refine ⟨Or.inr ?_, ?_, ?_, ?_⟩
    · show t0.size + 1 = t.size + 1
      rw [h0sz]
    · show (t0._insert_no_resize key value).max_load_factor = t.max_load_factor
      rw [imlf, h0mlf]
    · intro hres
      show (t0._insert_no_resize key value).capacity = t.capacity * 2
      rw [icap, h0cap1 hres]
    · intro hres
      show (t0._insert_no_resize key value).capacity = t.capacity
      rw [icap, h0cap2 hres]
  | some v0 =>
    have hne : t0.search key ≠ none := by rw [hkey]; exact Option.noConfusion
    rw [heqsome hne]
    exact ⟨Or.inl (isz.trans h0sz), imlf.trans h0mlf,
      fun hres => icap.trans (h0cap1 hres), fun hres => icap.trans (h0cap2 hres)⟩

/-- Structural behavior of `delete`'s size, load-factor setting and capacity,
assuming only a positive capacity: either nothing happens, or the size drops
by one and the capacity halves exactly when the shrink condition holds. -/
theorem delete_frame (t : HashTableChaining V) (key : Int) (hcap : 0 < t.capacity) :
    (t.delete key).1 = t ∨
    ((t.delete key).1.size = t.size - 1 ∧
     (t.delete key).1.max_load_factor = t.max_load_factor ∧
     (shrinkCondition t → (t.delete key).1.capacity = t.capacity / 2) ∧
     (¬ shrinkCondition t → (t.delete key).1.capacity = t.capacity)) := by
  cases hp : chainPop key (t.table.getD (t.hash_func.hash key).toNat []) with
  | none =>
    refine Or.inl ?_
    have hdel : t.delete key = (t, false) := by simp only [delete, hp]
    rw [hdel]
  | some c1 =>
    refine Or.inr ?_
    set t1 : HashTableChaining V :=
      { t with table := t.table.set (t.hash_func.hash key).toNat c1
               size := t.size - 1 } with ht1
    have hcondiff :
        (0 < t1.size ∧ t1._get_load_factor < (1 / 4 : ℚ) ∧ 16 < t1.capacity)
        ↔ shrinkCondition t := by
      unfold shrinkCondition
      have hlf : t1._get_load_factor = ((t.size : ℚ) - 1) / (t.capacity : ℚ) := by
        unfold _get_load_factor
        rw [show t1.capacity = t.capacity from rfl, show t1.size = t.size - 1 from rfl,
          if_pos hcap]
        push_cast
        rfl
      rw [hlf, show t1.capacity = t.capacity from rfl, show t1.size = t.size - 1 from rfl]
    have hdel : t.delete key
        = (if 0 < t1.size ∧ t1._get_load_factor < (1 / 4 : ℚ) ∧ 16 < t1.capacity
           then t1._resize (t1.capacity / 2) else t1, true) := by
      rw [ht1]
      simp only [delete, hp]
    by_cases hcond : shrinkCondition t
    · rw [hdel, if_pos (hcondiff.mpr hcond)]
      obtain ⟨rcap, rsz, rmlf, _, _⟩ := resize_frame t1 (t1.capacity / 2)
      exact ⟨rsz, rmlf, fun _ => rcap, fun hcontra => absurd hcond hcontra⟩
    · rw [hdel, if_neg ((Iff.not hcondiff).mpr hcond)]
      exact ⟨rfl, rfl, fun hc => absurd hc hcond, fun _ => rfl⟩

/-- The grow check of `insert`, in integer form, for the default threshold. -/
theorem lf_ge_iff (t : HashTableChaining V) (hcap : 0 < t.capacity)
    (hmlf : t.max_load_factor = 3 / 4) :
    (t._get_load_factor ≥ t.max_load_factor) ↔ 3 * t.capacity ≤ 4 * t.size := by
  unfold _get_load_factor
  rw [if_pos hcap, hmlf, ge_iff_le,
    div_le_div_iff (by norm_num) (show (0 : ℚ) < (t.capacity : ℚ) by exact_mod_cast hcap)]
  constructor
  · intro h1
    have h2 : ((3 * t.capacity : Int) : ℚ) ≤ ((4 * t.size : Int) : ℚ) := by
      push_cast
      linarith
    exact_mod_cast h2
  · intro h1
    have h2 : ((3 * t.capacity : Int) : ℚ) ≤ ((4 * t.size : Int) : ℚ) := by exact_mod_cast h1
    push_cast at h2
    linarith

/-- The shrink condition of `delete`, in integer form. -/
theorem shrink_lf_lt (t : HashTableChaining V) (hcap : 0 < t.capacity)
    (h : shrinkCondition t) : 4 * (t.size - 1) < t.capacity := by
  obtain ⟨_, hlf, _⟩ := h
  rw [div_lt_div_iff (show (0 : ℚ) < (t.capacity : ℚ) by exact_mod_cast hcap)
    (by norm_num)] at hlf
  have h2 : ((4 * (t.size - 1) : Int) : ℚ) < ((t.capacity : Int) : ℚ) := by
    push_cast
    linarith
  exact_mod_cast h2

/-- The default-configuration invariant is preserved by every public
operation. -/
theorem growinv_step (t : HashTableChaining V) (op : TableOp V) (h : GrowInv t) :
    GrowInv (t.step op) := by
  obtain ⟨⟨j, hj2, hcap⟩, hsz, hmlf⟩ := h
  have hcappos : 0 < t.capacity := by
    rw [hcap]
    positivity
  have hcap4 : ∃ c4 : Int, t.capacity = 4 * c4 ∧ 0 < c4 := by
    obtain ⟨m, hm⟩ : ∃ m, j = m + 2 := ⟨j - 2, by omega⟩
    refine ⟨2 ^ m, ?_, by positivity⟩
    rw [hcap, hm]
    ring
  obtain ⟨c4, hc4, hc4pos⟩ := hcap4
  cases op with
  | ins k v =>
    obtain ⟨hsize, hmlf1, hcap1, hcap2⟩ := insert_frame t k v
    show GrowInv (t.insert k v)
    by_cases hres : t._get_load_factor ≥ t.max_load_factor
    · refine ⟨⟨j + 1, by omega, by rw [hcap1 hres, hcap]; ring⟩, ?_, by rw [hmlf1, hmlf]⟩
      rw [hcap1 hres]
      rcases hsize with h1 | h1 <;> rw [h1] <;> omega
    · have hstrict : ¬ (3 * t.capacity ≤ 4 * t.size) :=
        fun hc => hres ((lf_ge_iff t hcappos hmlf).mpr hc)
      refine ⟨⟨j, hj2, by rw [hcap2 hres, hcap]⟩, ?_, by rw [hmlf1, hmlf]⟩
      rw [hcap2 hres]
      rcases hsize with h1 | h1 <;> rw [h1] <;> omega
  | del k =>
    show GrowInv ((t.delete k).1)
    rcases delete_frame t k hcappos with h1 | ⟨hsz1, hmlf1, hcap1, hcap2⟩
    · rw [h1]
      exact ⟨⟨j, hj2, hcap⟩, hsz, hmlf⟩
    · by_cases hcond : shrinkCondition t
      · have hlt : 4 * (t.size - 1) < t.capacity := shrink_lf_lt t hcappos hcond
        have h16 : (16 : Int) < t.capacity := hcond.2.2
        have hj5 : 5 ≤ j := by
          by_contra hcontra
          push_neg at hcontra
          interval_cases j <;> revert h16 <;> rw [hcap] <;> norm_num
        obtain ⟨m, hm⟩ : ∃ m, j = m + 1 := ⟨j - 1, by omega⟩
        have hhalf : t.capacity / 2 = 2 ^ m := by
          rw [hcap, hm, pow_succ]
          omega
        have hcapval : t.capacity = 2 ^ m * 2 := by rw [hcap, hm, pow_succ]
        have hmpos : (0 : Int) < 2 ^ m := by positivity
        refine ⟨⟨m, by omega, by rw [hcap1 hcond, hhalf]⟩, ?_, by rw [hmlf1, hmlf]⟩
        rw [hsz1, hcap1 hcond, hhalf]
        omega
      · refine ⟨⟨j, hj2, by rw [hcap2 hcond, hcap]⟩, ?_, by rw [hmlf1, hmlf]⟩
        rw [hsz1, hcap2 hcond]
        omega

/-- The default-configuration invariant holds for every reachable state of a
table built with max load factor `3/4` and a power-of-two capacity `≥ 4`. -/
theorem growinv_run (j : Nat) (hj2 : 2 ≤ j) (rA rB : Nat → Int)
    (ops : List (TableOp V)) :
    GrowInv ((init (V := V) ((2 : Int) ^ j) (3 / 4) rA rB).run ops) := by
  have hbase : GrowInv (init (V := V) ((2 : Int) ^ j) (3 / 4) rA rB) := by
    refine ⟨⟨j, hj2, rfl⟩, ?_, rfl⟩
    show 4 * (0 : Int) ≤ 3 * (2 : Int) ^ j
    positivity
  revert hbase
  generalize (init (V := V) ((2 : Int) ^ j) (3 / 4) rA rB) = t
  intro hbase
  induction ops generalizing t with
  | nil => exact hbase
  | cons op rest ih =>
    simp only [run, List.foldl_cons]
    exact ih _ (growinv_step t op hbase)

/-- Under the default-configuration invariant, the load factor never exceeds
`3/4`. -/
theorem growinv_lf_le (t : HashTableChaining V) (h : GrowInv t) :
    t._get_load_factor ≤ 3 / 4 := by
  obtain ⟨⟨j, _, hcap⟩, hsz, _⟩ := h
  have hcappos : 0 < t.capacity := by
    rw [hcap]
    positivity
  unfold _get_load_factor
  rw [if_pos hcappos,
    div_le_div_iff (show (0 : ℚ) < (t.capacity : ℚ) by exact_mod_cast hcappos) (by norm_num)]
  have h2 : ((4 * t.size : Int) : ℚ) ≤ ((3 * t.capacity : Int) : ℚ) := by exact_mod_cast hsz
  push_cast at h2
  linarith

/-- C7: for every `UniversalHashFunction` instance with modulus `m > 0` and
every integer key, `hash` returns `((coeff_a * key + coeff_b) mod prime) mod
modulus`, which lies in `[0, m)`.  Determinism on a fixed instance is
inherent: `hash` is a pure function of the instance fields and the key, which
the embedding makes definitional. -/
theorem claim_C7_hash (f : UniversalHashFunction) (key : Int) (hm : 0 < f.m) :
    f.hash key = ((f.a * key + f.b) % f.p) % f.m ∧
    0 ≤ f.hash key ∧ f.hash key < f.m :=
  ⟨rfl, hash_range f key hm⟩

/-- C7 witness: the concrete instance `a = 3`, `b = 7`, `m = 16` on key `-5`. -/
theorem claim_C7_hash_witness :
    (0 : Int) < (mkUniversalHashFunction 16 3 7).m ∧
    ((mkUniversalHashFunction 16 3 7).hash (-5)
        = (((mkUniversalHashFunction 16 3 7).a * (-5) + (mkUniversalHashFunction 16 3 7).b)
            % (mkUniversalHashFunction 16 3 7).p) % (mkUniversalHashFunction 16 3 7).m ∧
      0 ≤ (mkUniversalHashFunction 16 3 7).hash (-5) ∧
      (mkUniversalHashFunction 16 3 7).hash (-5) < (mkUniversalHashFunction 16 3 7).m) :=
  ⟨by decide, claim_C7_hash (mkUniversalHashFunction 16 3 7) (-5) (by decide)⟩

/-- C4: the spec requires construction with non-positive initial capacity or a
non-positive max load factor to fail fast, but `__init__` performs no
validation: the constructor completes and returns a degenerate table object
(capacity `0` with an empty bucket array, or even a negative capacity).  The
error would only surface later, as a `ZeroDivisionError` inside `hash`. -/
theorem claim_C4_no_validation :
    (init (V := Int) 0 0 (fun _ => 1) (fun _ => 0)).capacity = 0 ∧
    (init (V := Int) 0 0 (fun _ => 1) (fun _ => 0)).table = [] ∧
    (init (V := Int) 0 0 (fun _ => 1) (fun _ => 0)).size = 0 ∧
    (init (V := Int) (-5) (3 / 4) (fun _ => 1) (fun _ => 0)).capacity = -5 :=
  ⟨rfl, rfl, rfl, rfl⟩

/-- C2: for every sequence of insert calls applied to a freshly constructed
table (any positive capacity, any threshold, any random draws), `search`
returns exactly the last value inserted for each key — in particular, for
pairwise-distinct keys, the value inserted for that key — and `none` for keys
the sequence never inserted. -/
theorem claim_C2_roundtrip {V : Type} (cap : Int) (mlf : ℚ) (rA rB : Nat → Int)
    (ps : List (Int × V)) (key : Int) (hcap : 0 < cap) :
    (ps.foldl (fun acc p => acc.insert p.1 p.2) (init (V := V) cap mlf rA rB)).search key
      = lastInserted ps key := by
  rw [run_inserts_search ps _ (init_inv cap mlf rA rB hcap) key, init_search]
  cases lastInserted ps key <;> rfl

/-- C2 witness: keys 5, 7, 5 into a default table; the duplicate key reports
its second value. -/
theorem claim_C2_roundtrip_witness :
    (0 : Int) < 16 ∧
    (([((5 : Int), (50 : Int)), (7, 70), (5, 51)].foldl (fun acc p => acc.insert p.1 p.2)
        (init (V := Int) 16 (3 / 4) (fun _ => 1) (fun _ => 0))).search 5
      = lastInserted [((5 : Int), (50 : Int)), (7, 70), (5, 51)] 5) :=
  ⟨by decide,
    claim_C2_roundtrip 16 (3 / 4) (fun _ => 1) (fun _ => 0)
      [((5 : Int), (50 : Int)), (7, 70), (5, 51)] 5 (by decide)⟩

/-- C3: for every reachable table state and every resize to a positive new
capacity — growth (`capacity * 2`) and shrink (`capacity // 2`, guarded by
`capacity > 16`) are both instances — every key readable before the resize is
readable after it with the same value (`search` is unchanged pointwise). -/
theorem claim_C3_rehash {V : Type} (cap : Int) (mlf : ℚ) (rA rB : Nat → Int)
    (ops : List (TableOp V)) (c : Int) (key : Int) (t : HashTableChaining V)
    (hcap : 0 < cap) (hc : 0 < c)
    (ht : t = (init (V := V) cap mlf rA rB).run ops) :
    (t._resize c).search key = t.search key := by
  subst ht
  exact (resize_spec _ c (run_inv _ ops (init_inv cap mlf rA rB hcap)) hc).2.2.2.2.2.2 key

/-- C3 witness: growing a two-entry table from capacity 16 to 1 (the resize
that forces both entries into one bucket) leaves both keys readable. -/
theorem claim_C3_rehash_witness :
    (0 : Int) < 16 ∧ (0 : Int) < 32 ∧
    ((((init (V := Int) 16 (3 / 4) (fun _ => 1) (fun _ => 0)).run
        [TableOp.ins 3 30, TableOp.ins 19 190])._resize 32).search 19
      = ((init (V := Int) 16 (3 / 4) (fun _ => 1) (fun _ => 0)).run
        [TableOp.ins 3 30, TableOp.ins 19 190]).search 19) :=
  ⟨by decide, by decide,
    claim_C3_rehash 16 (3 / 4) (fun _ => 1) (fun _ => 0)
      [TableOp.ins 3 30, TableOp.ins 19 190] 32 19 _ (by decide) (by decide) rfl⟩

/-- C5: on every reachable table state, deleting a present key returns `true`
and afterwards `search` reports not-found for it; deleting an absent key
(including on an empty table) returns `false` and the entire state — buckets,
size, capacity and counters — is literally unchanged. -/
theorem claim_C5_delete {V : Type} (cap : Int) (mlf : ℚ) (rA rB : Nat → Int)
    (ops : List (TableOp V)) (key : Int) (t : HashTableChaining V)
    (hcap : 0 < cap) (ht : t = (init (V := V) cap mlf rA rB).run ops) :
    (t.search key ≠ none →
      (t.delete key).2 = true ∧ (t.delete key).1.search key = none) ∧
    (t.search key = none →
      (t.delete key).2 = false ∧ t.delete key = (t, false)) := by
  subst ht
  obtain ⟨_, habsent, hpresent⟩ :=
    delete_spec _ key (run_inv _ ops (init_inv cap mlf rA rB hcap))
  constructor
  · intro hne
    obtain ⟨hret, hnone, _⟩ := hpresent hne
    exact ⟨hret, hnone⟩
  · intro hno
    rw [habsent hno]
    exact ⟨rfl, (habsent hno).symm.trans (habsent hno)⟩

/-- C5 witness: key 3 is present after two inserts; delete returns true and
search then misses it. -/
theorem claim_C5_delete_witness :
    ((((init (V := Int) 16 (3 / 4) (fun _ => 1) (fun _ => 0)).run
        [TableOp.ins 3 30, TableOp.ins 4 40]).delete 3).2 = true ∧
      (((init (V := Int) 16 (3 / 4) (fun _ => 1) (fun _ => 0)).run
        [TableOp.ins 3 30, TableOp.ins 4 40]).delete 3).1.search 3 = none) :=
  (claim_C5_delete 16 (3 / 4) (fun _ => 1) (fun _ => 0)
      [TableOp.ins 3 30, TableOp.ins 4 40] 3 _ (by decide) rfl).1
    (by with_unfolding_all decide)

/-- C8: on every reachable table state, inserting the same key twice with two
(distinct) values leaves `size` unchanged by the second insert, and `search`
returns the second value. -/
theorem claim_C8_idempotent {V : Type} (cap : Int) (mlf : ℚ) (rA rB : Nat → Int)
    (ops : List (TableOp V)) (key : Int) (v1 v2 : V) (t : HashTableChaining V)
    (hcap : 0 < cap) (ht : t = (init (V := V) cap mlf rA rB).run ops)
    (hne : v1 ≠ v2) :
    ((t.insert key v1).insert key v2).size = (t.insert key v1).size ∧
    ((t.insert key v1).insert key v2).search key = some v2 := by
  subst ht
  have hinv := run_inv _ ops (init_inv (V := V) cap mlf rA rB hcap)
  obtain ⟨hinv1, _, hkey1, _, _, _⟩ := insert_spec _ key v1 hinv
  obtain ⟨_, _, hkey2, _, hsz2, _⟩ := insert_spec _ key v2 hinv1
  refine ⟨hsz2 ?_, hkey2⟩
  rw [hkey1]
  exact Option.noConfusion

/-- C8 witness: key 3 inserted with 30 then 31 on a fresh default table. -/
theorem claim_C8_idempotent_witness :
    (0 : Int) < 16 ∧ (30 : Int) ≠ 31 ∧
    (((((init (V := Int) 16 (3 / 4) (fun _ => 1) (fun _ => 0)).run []).insert 3 30).insert 3 31).size
      = ((((init (V := Int) 16 (3 / 4) (fun _ => 1) (fun _ => 0)).run []).insert 3 30)).size ∧
     ((((init (V := Int) 16 (3 / 4) (fun _ => 1) (fun _ => 0)).run []).insert 3 30).insert 3 31).search 3
      = some 31) :=
  ⟨by decide, by decide,
    claim_C8_idempotent 16 (3 / 4) (fun _ => 1) (fun _ => 0) [] 3 30 31 _
      (by decide) rfl (by decide)⟩

/-- C9: every call of the internal `_resize` (to a positive capacity, as both
call sites guarantee) preserves `size`, increments the cumulative resize
counter by exactly one, and never decreases the cumulative collision counter;
and collisions produced while rehashing do count — the final conjunct shows a
resize whose rehash strictly increases the counter. -/
theorem claim_C9_resize_frame {V : Type} (t : HashTableChaining V) (c : Int)
    (hc : 0 < c) :
    (t._resize c).size = t.size ∧
    (t._resize c).num_resizes = t.num_resizes + 1 ∧
    t.num_collisions ≤ (t._resize c).num_collisions ∧
    ((((init (V := Int) 16 (3 / 4) (fun _ => 1) (fun _ => 0)).insert 0 0).insert 1 1)._resize
        1).num_collisions
      = (((init (V := Int) 16 (3 / 4) (fun _ => 1) (fun _ => 0)).insert 0 0).insert
          1 1).num_collisions + 1 := by
  obtain ⟨_, rsz, _, rresz, rcoll⟩ := resize_frame t c
  exact ⟨rsz, rresz, rcoll, by with_unfolding_all decide⟩

/-- C9 witness: the frame facts at the concrete two-entry table resized to
capacity 2. -/
theorem claim_C9_resize_frame_witness :
    (0 : Int) < 2 ∧
    (((((init (V := Int) 16 (3 / 4) (fun _ => 1) (fun _ => 0)).insert 0 0).insert 1 1)._resize
        2).size
      = (((init (V := Int) 16 (3 / 4) (fun _ => 1) (fun _ => 0)).insert 0 0).insert 1 1).size ∧
     ((((init (V := Int) 16 (3 / 4) (fun _ => 1) (fun _ => 0)).insert 0 0).insert 1 1)._resize
        2).num_resizes
      = (((init (V := Int) 16 (3 / 4) (fun _ => 1) (fun _ => 0)).insert 0 0).insert
          1 1).num_resizes + 1 ∧
     (((init (V := Int) 16 (3 / 4) (fun _ => 1) (fun _ => 0)).insert 0 0).insert
        1 1).num_collisions
      ≤ ((((init (V := Int) 16 (3 / 4) (fun _ => 1) (fun _ => 0)).insert 0 0).insert
          1 1)._resize 2).num_collisions ∧
     ((((init (V := Int) 16 (3 / 4) (fun _ => 1) (fun _ => 0)).insert 0 0).insert 1 1)._resize
        1).num_collisions
      = (((init (V := Int) 16 (3 / 4) (fun _ => 1) (fun _ => 0)).insert 0 0).insert
          1 1).num_collisions + 1) :=
  ⟨by decide,
    claim_C9_resize_frame (((init (V := Int) 16 (3 / 4) (fun _ => 1) (fun _ => 0)).insert 0
      0).insert 1 1) 2 (by decide)⟩

/-- C10: on every reachable table state the hashed index of every integer key
— negative keys included — lies in `[0, capacity)`, hence the bucket accesses
of `insert` / `search` / `delete` are in bounds, and negative keys round-trip
through insert and search exactly like non-negative ones. -/
theorem claim_C10_negative_keys {V : Type} (cap : Int) (mlf : ℚ) (rA rB : Nat → Int)
    (ops : List (TableOp V)) (key : Int) (value : V) (t : HashTableChaining V)
    (hcap : 0 < cap) (ht : t = (init (V := V) cap mlf rA rB).run ops) :
    0 ≤ t.hash_func.hash key ∧ t.hash_func.hash key < t.capacity ∧
    (t.hash_func.hash key).toNat < t.table.length ∧
    (t.insert key value).search key = some value := by
  subst ht
  have hinv := run_inv _ ops (init_inv (V := V) cap mlf rA rB hcap)
  obtain ⟨h0, h1⟩ := hash_range _ key (by rw [hinv.hm]; exact hinv.cap_pos)
  rw [hinv.hm] at h1
  exact ⟨h0, h1, index_lt _ key hinv, (insert_spec _ key value hinv).2.2.1⟩

/-- C10 witness: the negative key `-7` on a fresh default table hashes in
bounds and round-trips. -/
theorem claim_C10_negative_keys_witness :
    0 ≤ (init (V := Int) 16 (3 / 4) (fun _ => 1) (fun _ => 0)).hash_func.hash (-7) ∧
    (init (V := Int) 16 (3 / 4) (fun _ => 1) (fun _ => 0)).hash_func.hash (-7)
      < (init (V := Int) 16 (3 / 4) (fun _ => 1) (fun _ => 0)).capacity ∧
    ((init (V := Int) 16 (3 / 4) (fun _ => 1) (fun _ => 0)).hash_func.hash (-7)).toNat
      < (init (V := Int) 16 (3 / 4) (fun _ => 1) (fun _ => 0)).table.length ∧
    ((init (V := Int) 16 (3 / 4) (fun _ => 1) (fun _ => 0)).insert (-7) 99).search (-7)
      = some 99 :=
  claim_C10_negative_keys 16 (3 / 4) (fun _ => 1) (fun _ => 0) [] (-7) 99 _ (by decide) rfl

/-- C1 counterexample: the strict bound `size / capacity < max_load_factor`
after insert fails on the code.  Inserting the 12 distinct keys `0..11` into a
fresh default table (capacity 16, max load factor `3/4`) completes with load
factor exactly `12/16 = 3/4`: the check-then-resize ordering only guarantees
the bound *before* the new key is placed. -/
theorem claim_C1_counterexample :
    ¬ ((((init (V := Int) 16 (3 / 4) (fun _ => 1) (fun _ => 0)).run
          ((List.range 11).map (fun i => TableOp.ins (i : Int) (i : Int)))).insert 11
        11)._get_load_factor
      < (((init (V := Int) 16 (3 / 4) (fun _ => 1) (fun _ => 0)).run
          ((List.range 11).map (fun i => TableOp.ins (i : Int) (i : Int)))).insert 11
        11).max_load_factor) := by
  with_unfolding_all decide

/-- C1 amended: the strict bound fails (equality is reached, see the
counterexample), but the non-strict bound holds on every table constructed
with the default threshold `3/4` and a power-of-two initial capacity of at
least 4 (the default 16 included): immediately after any insert returns,
`size / capacity ≤ max_load_factor`. -/
theorem claim_C1_amended (j : Nat) (rA rB : Nat → Int) (ops : List (TableOp Int))
    (key value : Int) (hj : 2 ≤ j) :
    ((((init (V := Int) ((2 : Int) ^ j) (3 / 4) rA rB).run ops).insert key
        value)._get_load_factor)
      ≤ (((init (V := Int) ((2 : Int) ^ j) (3 / 4) rA rB).run ops).insert key
        value).max_load_factor := by
  have hg := growinv_run (V := Int) j hj rA rB ops
  have hg2 : GrowInv (((init (V := Int) ((2 : Int) ^ j) (3 / 4) rA rB).run ops).insert
      key value) := growinv_step _ (TableOp.ins key value) hg
  have hle := growinv_lf_le _ hg2
  rw [hg2.2.2]
  exact hle

/-- C1 amended witness: one insert into a fresh default-capacity table. -/
theorem claim_C1_amended_witness :
    2 ≤ 4 ∧
    (((init (V := Int) ((2 : Int) ^ 4) (3 / 4) (fun _ => 1) (fun _ => 0)).insert 0
        0)._get_load_factor
      ≤ ((init (V := Int) ((2 : Int) ^ 4) (3 / 4) (fun _ => 1) (fun _ => 0)).insert 0
        0).max_load_factor) :=
  ⟨by decide, claim_C1_amended 4 (fun _ => 1) (fun _ => 0) [] 0 0 (by decide)⟩

/-- C6 counterexample: the "capacity never drops below the floor of 16" part
of the claim is false.  A table constructed with capacity 17 holding two keys
shrinks on the first delete (size 1 > 0, load factor 1/17 < 0.25,
capacity 17 > 16) to `17 // 2 = 8 < 16`. -/
theorem claim_C6_counterexample :
    ((((init (V := Int) 17 (3 / 4) (fun _ => 1) (fun _ => 0)).insert 0 0).insert 1
        1).delete 0).1.capacity = 8 ∧
    ((((init (V := Int) 17 (3 / 4) (fun _ => 1) (fun _ => 0)).insert 0 0).insert 1
        1).delete 0).1.num_resizes = 1 := by
  with_unfolding_all decide

/-- C6 amended: on every reachable table state, `delete` shrinks — to
`capacity // 2`, with a fresh hash function and a resize-counter increment —
exactly when, after the removal, `size > 0` and `size / capacity < 0.25` and
`capacity > 16`.  The resulting capacity is always at least 8, but (contrary
to the original claim) it can drop below the floor of 16 when the capacity is
not a power of two (17 shrinks to 8).  Deleting an absent key changes
nothing. -/
theorem claim_C6_amended {V : Type} (cap : Int) (mlf : ℚ) (rA rB : Nat → Int)
    (ops : List (TableOp V)) (key : Int) (t : HashTableChaining V)
    (hcap : 0 < cap) (ht : t = (init (V := V) cap mlf rA rB).run ops) :
    (t.search key ≠ none →
      (shrinkCondition t →
        (t.delete key).1.capacity = t.capacity / 2 ∧
        (t.delete key).1.num_resizes = t.num_resizes + 1 ∧
        8 ≤ (t.delete key).1.capacity) ∧
      (¬ shrinkCondition t →
        (t.delete key).1.capacity = t.capacity ∧
        (t.delete key).1.num_resizes = t.num_resizes)) ∧
    (t.search key = none → t.delete key = (t, false)) := by
  subst ht
  obtain ⟨_, habsent, hpresent⟩ :=
    delete_spec _ key (run_inv _ ops (init_inv cap mlf rA rB hcap))
  exact ⟨fun hne => ⟨(hpresent hne).2.2.2.2.2.1, (hpresent hne).2.2.2.2.2.2⟩, habsent⟩

/-- C6 amended witness: the capacity-17 table with two keys; deleting key 0
takes the shrink branch, halving 17 to 8. -/
theorem claim_C6_amended_witness :
    ((((init (V := Int) 17 (3 / 4) (fun _ => 1) (fun _ => 0)).run
        [TableOp.ins 0 0, TableOp.ins 1 1]).delete 0).1.capacity
      = ((init (V := Int) 17 (3 / 4) (fun _ => 1) (fun _ => 0)).run
        [TableOp.ins 0 0, TableOp.ins 1 1]).capacity / 2 ∧
     (((init (V := Int) 17 (3 / 4) (fun _ => 1) (fun _ => 0)).run
        [TableOp.ins 0 0, TableOp.ins 1 1]).delete 0).1.num_resizes
      = ((init (V := Int) 17 (3 / 4) (fun _ => 1) (fun _ => 0)).run
        [TableOp.ins 0 0, TableOp.ins 1 1]).num_resizes + 1 ∧
     8 ≤ (((init (V := Int) 17 (3 / 4) (fun _ => 1) (fun _ => 0)).run
        [TableOp.ins 0 0, TableOp.ins 1 1]).delete 0).1.capacity) :=
  ((claim_C6_amended 17 (3 / 4) (fun _ => 1) (fun _ => 0)
      [TableOp.ins 0 0, TableOp.ins 1 1] 0 _ (by decide) rfl).1
    (by with_unfolding_all decide)).1 (by with_unfolding_all decide)

end HashTableChaining
